import Mathlib

/-!
Verification of the word-salat repository: shallow embedding of the core
scrambling algorithm (`src/core.py`) and the scoring engine
(`src/scoring.py`), together with proofs of the specified properties.

Strings are embedded as `List Char`.  Python's `random.Random` is embedded
as an oracle `Rng`: a function from a call counter and an input list to a
shuffled output list, together with the current counter.  Each call to
`shuffle` consumes one counter step, exactly as each call to
`random.Random.shuffle` consumes generator state.  `Rng.Valid` states the
one property Python guarantees of `shuffle`: the output is a permutation
of the input.
-/

namespace WordSalat

/-- Embedding of a `random.Random` handle: `f n l` is the result of the
`n`-th `shuffle` call when applied to list `l`; `k` is the current call
counter. -/
structure Rng where
  f : Nat → List Char → List Char
  k : Nat

/-- One `rng.shuffle(l)` call: produce the shuffled list and advance the
counter. -/
def Rng.next (r : Rng) (l : List Char) : List Char × Rng :=
  (r.f r.k l, ⟨r.f, r.k + 1⟩)

/-- The guarantee Python's `random.shuffle` provides: every output is a
permutation of the input. -/
def Rng.Valid (r : Rng) : Prop := ∀ n l, (r.f n l).Perm l

/-- Embedding of the list write `candidate[idx] = value`; `none` models the
`IndexError` Python raises when the index is out of range. -/
def setOpt (l : List Char) (i : Nat) (v : Char) : Option (List Char) :=
  if i < l.length then some (l.set i v) else none

/-- Embedding of the loop `for idx, value in zip(indices, randomized):
candidate[idx] = value` from `_attempt_shuffle`. -/
def assignAll : List Char → List (Nat × Char) → Option (List Char)
  | c, [] => some c
  | c, (i, v) :: rest =>
    match setOpt c i v with
    | none => none
    | some c' => assignAll c' rest

/-- Embedding of `subset = [chars[i] for i in indices]`; `none` models an
`IndexError`. -/
def getSubset (chars : List Char) : List Nat → Option (List Char)
  | [] => some []
  | i :: rest =>
    match chars.get? i, getSubset chars rest with
    | some v, some vs => some (v :: vs)
    | _, _ => none

/-- Embedding of the `for _ in range(max_attempts)` retry loop of
`_attempt_shuffle`: shuffle the subset, scatter it back over `indices`,
accept the first candidate that differs from the original, and fall back
to the original when the fuel runs out. -/
def attemptLoop (original subset : List Char) (indices : List Nat) :
    Nat → Rng → Option (List Char × Rng)
  | 0, rng => some (original, rng)
  | n + 1, rng =>
    let p := rng.next subset
    match assignAll original (indices.zip p.1) with
    | none => none
    | some candidate =>
      if candidate = original then attemptLoop original subset indices n p.2
      else some (candidate, p.2)

/-- Embedding of `_attempt_shuffle` from `src/core.py` (identical in
`word_salat.py`).  `MAX_SHUFFLE_ATTEMPTS = 8` is passed explicitly by the
callers below.  `len(set(subset)) <= 1` is embedded as
`subset.dedup.length ≤ 1`. -/
def attempt_shuffle (chars : List Char) (indices : List Nat) (rng : Rng)
    (max_attempts : Nat) : Option (List Char × Rng) :=
  if indices.length ≤ 1 then some (chars, rng)
  else
    match getSubset chars indices with
    | none => none
    | some subset =>
      if subset.dedup.length ≤ 1 then some (chars, rng)
      else attemptLoop chars subset indices max_attempts rng

/-- Embedding of `scramble_word` from `src/core.py`: words of length ≤ 3
are returned unchanged; otherwise the interior indices `range(1, len-1)`
(minus the middle index for odd lengths) are shuffled. -/
def scramble_word (word : List Char) (rng : Rng) :
    Option (List Char × Rng) :=
  if word.length ≤ 3 then some (word, rng)
  else
    let indices0 := List.range' 1 (word.length - 2)
    let indices :=
      if word.length % 2 = 1 then
        if word.length / 2 ∈ indices0 then indices0.erase (word.length / 2)
        else indices0
      else indices0
    attempt_shuffle word indices rng 8

/-- Embedding of the character class of `WORD_PATTERN`
(`[A-Za-zÀ-ÖØ-öø-ÿ]`). -/
def isWordChar (c : Char) : Bool :=
  (0x41 ≤ c.toNat && c.toNat ≤ 0x5A) || (0x61 ≤ c.toNat && c.toNat ≤ 0x7A) ||
  (0xC0 ≤ c.toNat && c.toNat ≤ 0xD6) || (0xD8 ≤ c.toNat && c.toNat ≤ 0xF6) ||
  (0xF8 ≤ c.toNat && c.toNat ≤ 0xFF)

/-- Split a character list into maximal runs of equal class under `f`,
tagging each run with its class.  This embeds the segment walk that
`WORD_PATTERN.finditer` induces in `_scramble_segments`: word runs are
tagged `true`, the gaps between them (coalesced literals) `false`. -/
def runsAux (f : Char → Bool) (cls : Bool) (acc : List Char) :
    List Char → List (Bool × List Char)
  | [] => [(cls, acc.reverse)]
  | c :: cs =>
    if f c = cls then runsAux f cls (c :: acc) cs
    else (cls, acc.reverse) :: runsAux f (f c) [c] cs

/-- Maximal runs of a character list, each tagged by its class under `f`. -/
def runsBy (f : Char → Bool) : List Char → List (Bool × List Char)
  | [] => []
  | c :: cs => runsAux f (f c) [c] cs

/-- The segment sequence of `_scramble_segments`: word segments (`true`)
and literal segments (`false`) in input order. -/
def segments (text : List Char) : List (Bool × List Char) :=
  runsBy isWordChar text

/-- Embedding of the body of `_scramble_segments`: scramble each word
segment with the shared rng, copy literal segments verbatim, concatenate. -/
def scrambleSegs : List (Bool × List Char) → Rng → Option (List Char × Rng)
  | [], rng => some ([], rng)
  | (b, run) :: rest, rng =>
    if b then
      match scramble_word run rng with
      | none => none
      | some (w, rng') =>
        match scrambleSegs rest rng' with
        | none => none
        | some (t, rng'') => some (w ++ t, rng'')
    else
      match scrambleSegs rest rng with
      | none => none
      | some (t, rng') => some (run ++ t, rng')

/-- Embedding of `scramble_text` from `src/core.py`: `random.Random(seed)`
becomes the abstract rng handle threaded through all segments. -/
def scramble_text (text : List Char) (rng : Rng) :
    Option (List Char × Rng) :=
  scrambleSegs (segments text) rng

/-- Position mask of a text: letters (in the sense of `WORD_PATTERN`)
become `none`, every other character is kept as `some c`.  Two texts have
equal masks iff they have the same length, letters at the same positions,
and identical non-letter characters at all remaining positions. -/
def maskO (l : List Char) : List (Option Char) :=
  l.map (fun c => if isWordChar c then none else some c)

/-! ### Lemmas about the scatter assignment -/

lemma set_multiset (d v : Char) :
    ∀ (l : List Char) (i : Nat), i < l.length →
      (l.set i v : Multiset Char) + {l.getD i d} = (l : Multiset Char) + {v} := by
  intro l
  induction l with
  | nil => intro i h; simp at h
  | cons a t ih =>
    intro i h
    cases i with
    | zero =>
      simp only [List.set_cons_zero, List.getD_cons_zero]
      rw [← Multiset.cons_coe, ← Multiset.cons_coe, ← Multiset.singleton_add,
        ← Multiset.singleton_add]
      abel
    | succ i =>
      have h' : i < t.length := by simpa using h
      have hrec := ih i h'
      simp only [List.set_cons_succ, List.getD_cons_succ]
      rw [← Multiset.cons_coe, ← Multiset.cons_coe, ← Multiset.singleton_add,
        ← Multiset.singleton_add, add_assoc, add_assoc, hrec]

lemma assignAll_spec : ∀ (pairs : List (Nat × Char)) (c : List Char),
    (∀ p ∈ pairs, p.1 < c.length) →
    ∃ c', assignAll c pairs = some c' ∧ c'.length = c.length ∧
      ∀ j, (∀ p ∈ pairs, p.1 ≠ j) → c'.get? j = c.get? j := by
  intro pairs
  induction pairs with
  | nil => intro c _; exact ⟨c, rfl, rfl, fun _ _ => rfl⟩
  | cons p rest ih =>
    obtain ⟨i, v⟩ := p
    intro c h
    have hi : i < c.length := h (i, v) (List.mem_cons_self _ _)
    have hset : setOpt c i v = some (c.set i v) := by simp [setOpt, hi]
    have hb' : ∀ q ∈ rest, q.1 < (c.set i v).length := by
      intro q hq; rw [List.length_set]; exact h q (List.mem_cons_of_mem _ hq)
    obtain ⟨c', h1, h2, h3⟩ := ih (c.set i v) hb'
    refine ⟨c', ?_, ?_, ?_⟩
    · simp [assignAll, hset, h1]
    · rw [h2, List.length_set]
    · intro j hj
      rw [h3 j (fun q hq => hj q (List.mem_cons_of_mem _ hq))]
      have hij : i ≠ j := hj (i, v) (List.mem_cons_self _ _)
      simp [List.get?_eq_getElem?, List.getElem?_set_ne hij]

lemma assignAll_multiset (d : Char) :
    ∀ (indices : List Nat) (rand c c' : List Char),
    indices.Nodup → (∀ i ∈ indices, i < c.length) →
    rand.length = indices.length →
    assignAll c (indices.zip rand) = some c' →
    (c' : Multiset Char) + ↑(indices.map fun i => c.getD i d) =
      (c : Multiset Char) + ↑rand := by
  intro indices
  induction indices with
  | nil =>
    intro rand c c' _ _ hlen heq
    have hr : rand = [] := List.length_eq_zero.mp hlen
    subst hr
    simp only [List.zip_nil_right, assignAll, Option.some.injEq] at heq
    subst heq
    simp
  | cons i is ih =>
    intro rand c c' hnd hb hlen heq
    cases rand with
    | nil => simp at hlen
    | cons v vs =>
      have hi : i < c.length := hb i (List.mem_cons_self _ _)
      have hset : setOpt c i v = some (c.set i v) := by simp [setOpt, hi]
      rw [List.zip_cons_cons] at heq
      simp only [assignAll, hset] at heq
      have hmem : i ∉ is := (List.nodup_cons.mp hnd).1
      have hnd' : is.Nodup := (List.nodup_cons.mp hnd).2
      have hb' : ∀ j ∈ is, j < (c.set i v).length := by
        intro j hj; rw [List.length_set]; exact hb j (List.mem_cons_of_mem _ hj)
      have hlen' : vs.length = is.length := by simpa using hlen
      have IH := ih vs (c.set i v) c' hnd' hb' hlen' heq
      have hmap : (is.map fun j => (c.set i v).getD j d) =
          is.map fun j => c.getD j d := by
        apply List.map_congr_left
        intro j hj
        have hij : i ≠ j := fun h => hmem (h ▸ hj)
        simp [List.getD_eq_getElem?_getD, List.getElem?_set_ne hij]
      rw [hmap] at IH
      have hms := set_multiset d v c i hi
      calc (c' : Multiset Char) + ↑((i :: is).map fun j => c.getD j d)
          = ((c' : Multiset Char) + ↑(is.map fun j => c.getD j d)) +
              {c.getD i d} := by
            rw [List.map_cons, ← Multiset.cons_coe, ← Multiset.singleton_add]
            abel
        _ = ((c.set i v : Multiset Char) + ↑vs) + {c.getD i d} := by rw [IH]
        _ = ((c.set i v : Multiset Char) + {c.getD i d}) + ↑vs := by abel
        _ = ((c : Multiset Char) + {v}) + ↑vs := by rw [hms]
        _ = (c : Multiset Char) + ↑(v :: vs) := by
            rw [← Multiset.cons_coe, ← Multiset.singleton_add]
            abel

lemma assignAll_perm (d : Char) (indices : List Nat) (rand c c' : List Char)
    (hnd : indices.Nodup) (hb : ∀ i ∈ indices, i < c.length)
    (hperm : rand.Perm (indices.map fun i => c.getD i d))
    (heq : assignAll c (indices.zip rand) = some c') : c'.Perm c := by
  have hlen : rand.length = indices.length := by
    rw [hperm.length_eq, List.length_map]
  have h := assignAll_multiset d indices rand c c' hnd hb hlen heq
  have hr : (rand : Multiset Char) = ↑(indices.map fun i => c.getD i d) :=
    Multiset.coe_eq_coe.mpr hperm
  rw [hr] at h
  exact Multiset.coe_eq_coe.mp (add_right_cancel h)

lemma getSubset_eq (d : Char) : ∀ (indices : List Nat) (chars : List Char),
    (∀ i ∈ indices, i < chars.length) →
    getSubset chars indices = some (indices.map fun i => chars.getD i d) := by
  intro indices
  induction indices with
  | nil => intro chars _; rfl
  | cons i is ih =>
    intro chars h
    have hi : i < chars.length := h i (List.mem_cons_self _ _)
    have hv : chars[i]? = some chars[i] := List.getElem?_eq_getElem hi
    have hd : chars.getD i d = chars[i] := by
      rw [List.getD_eq_getElem?_getD, hv]
      rfl
    have h2 := ih chars (fun j hj => h j (List.mem_cons_of_mem _ hj))
    simp [getSubset, List.get?_eq_getElem?, hv, h2, hd]

/-! ### The bounded retry loop -/

lemma attemptLoop_total (indices : List Nat) (orig subset : List Char)
    (hb : ∀ i ∈ indices, i < orig.length) :
    ∀ (n : Nat) (r : Rng),
    ∃ c r', attemptLoop orig subset indices n r = some (c, r') ∧
      r'.f = r.f ∧ r.k ≤ r'.k ∧ r'.k ≤ r.k + n ∧
      c.length = orig.length ∧
      (∀ j, j ∉ indices → c.get? j = orig.get? j) ∧
      ((∀ m, m < n →
          assignAll orig (indices.zip (r.f (r.k + m) subset)) = some orig) →
        c = orig) ∧
      (c = orig ∨ ∃ m, assignAll orig (indices.zip (r.f m subset)) = some c) := by
  intro n
  induction n with
  | zero =>
    intro r
    exact ⟨orig, r, rfl, rfl, le_refl _, by omega, rfl, fun _ _ => rfl,
      fun _ => rfl, Or.inl rfl⟩
  | succ n ih =>
    intro r
    have hbp : ∀ p ∈ indices.zip (r.f r.k subset), p.1 < orig.length := by
      intro p hp; exact hb p.1 (List.of_mem_zip hp).1
    obtain ⟨cand, hcand, hclen, hcoff⟩ :=
      assignAll_spec (indices.zip (r.f r.k subset)) orig hbp
    by_cases hc : cand = orig
    · obtain ⟨c, r', h1, h2, h3, h4, h5, h6, h7, h8⟩ := ih ⟨r.f, r.k + 1⟩
      have hk : (⟨r.f, r.k + 1⟩ : Rng).k = r.k + 1 := rfl
      rw [hk] at h3 h4
      refine ⟨c, r', ?_, h2, ?_, ?_, h5, h6, ?_, ?_⟩
      · simp only [attemptLoop, Rng.next, hcand, hc, if_pos]
        exact h1
      · omega
      · omega
      · intro H
        apply h7
        intro m hm
        show assignAll orig (indices.zip (r.f (r.k + 1 + m) subset)) = some orig
        rw [show r.k + 1 + m = r.k + (m + 1) from by omega]
        exact H (m + 1) (by omega)
      · exact h8
    · refine ⟨cand, ⟨r.f, r.k + 1⟩, ?_, rfl, Nat.le_succ _,
        show r.k + 1 ≤ r.k + (n + 1) from by omega, hclen, ?_, ?_,
        Or.inr ⟨r.k, hcand⟩⟩
      · simp only [attemptLoop, Rng.next, hcand, hc, if_false, if_neg hc]
      · intro j hj
        exact hcoff j (fun p hp h => hj (h ▸ (List.of_mem_zip hp).1))
      · intro H
        exfalso
        have h0 := H 0 (by omega)
        rw [Nat.add_zero] at h0
        rw [h0] at hcand
        exact hc (Option.some.injEq _ _ ▸ hcand).symm

lemma attempt_shuffle_total (d : Char) (chars : List Char) (indices : List Nat)
    (rng : Rng) (n : Nat) (hb : ∀ i ∈ indices, i < chars.length) :
    ∃ c r', attempt_shuffle chars indices rng n = some (c, r') ∧
      r'.f = rng.f ∧ rng.k ≤ r'.k ∧ r'.k ≤ rng.k + n ∧
      c.length = chars.length ∧
      (∀ j, j ∉ indices → c.get? j = chars.get? j) ∧
      (indices.length ≤ 1 → c = chars ∧ r' = rng) ∧
      ((indices.map fun i => chars.getD i d).dedup.length ≤ 1 →
        c = chars ∧ r' = rng) ∧
      ((∀ m, m < n → assignAll chars
          (indices.zip (rng.f (rng.k + m) (indices.map fun i => chars.getD i d)))
            = some chars) → c = chars) ∧
      (c = chars ∨ ∃ m, assignAll chars
          (indices.zip (rng.f m (indices.map fun i => chars.getD i d)))
            = some c) := by
  by_cases h1 : indices.length ≤ 1
  · refine ⟨chars, rng, ?_, rfl, le_refl _, by omega, rfl, fun _ _ => rfl,
      fun _ => ⟨rfl, rfl⟩, fun _ => ⟨rfl, rfl⟩, fun _ => rfl, Or.inl rfl⟩
    simp [attempt_shuffle, h1]
  · have hsub := getSubset_eq d indices chars hb
    by_cases h2 : (indices.map fun i => chars.getD i d).dedup.length ≤ 1
    · refine ⟨chars, rng, ?_, rfl, le_refl _, by omega, rfl, fun _ _ => rfl,
        fun hle => absurd hle h1, fun _ => ⟨rfl, rfl⟩, fun _ => rfl, Or.inl rfl⟩
      simp only [attempt_shuffle, if_neg h1, hsub]
      rw [if_pos h2]
    · obtain ⟨c, r', hL1, hL2, hL3, hL4, hL5, hL6, hL7, hL8⟩ :=
        attemptLoop_total indices chars (indices.map fun i => chars.getD i d)
          hb n rng
      refine ⟨c, r', ?_, hL2, hL3, hL4, hL5, hL6,
        fun hle => absurd hle h1, fun hd => absurd hd h2, hL7, hL8⟩
      simp only [attempt_shuffle, if_neg h1, hsub]
      rw [if_neg h2]
      exact hL1

lemma attempt_shuffle_valid (d : Char) (chars : List Char) (indices : List Nat)
    (rng : Rng) (n : Nat) (hnd : indices.Nodup)
    (hb : ∀ i ∈ indices, i < chars.length) (hv : rng.Valid) :
    ∃ c r', attempt_shuffle chars indices rng n = some (c, r') ∧
      r'.f = rng.f ∧ c.length = chars.length ∧ c.Perm chars ∧
      (∀ j, j ∉ indices → c.get? j = chars.get? j) := by
  obtain ⟨c, r', h1, h2, _, _, h5, h6, _, _, _, h10⟩ :=
    attempt_shuffle_total d chars indices rng n hb
  refine ⟨c, r', h1, h2, h5, ?_, h6⟩
  rcases h10 with h | ⟨m, hm⟩
  · exact h ▸ List.Perm.refl _
  · exact assignAll_perm d indices _ chars c hnd hb (hv m _) hm

/-! ### `scramble_word` -/

lemma scramble_word_spec (w : List Char) (rng : Rng) (hv : rng.Valid) :
    ∃ w' rng', scramble_word w rng = some (w', rng') ∧ rng'.f = rng.f ∧
      w'.length = w.length ∧ w'.Perm w ∧
      w'.get? 0 = w.get? 0 ∧
      w'.get? (w.length - 1) = w.get? (w.length - 1) ∧
      (w.length % 2 = 1 → w'.get? (w.length / 2) = w.get? (w.length / 2)) := by
  by_cases hs : w.length ≤ 3
  · exact ⟨w, rng, by simp [scramble_word, hs], rfl, rfl, List.Perm.refl _,
      rfl, rfl, fun _ => rfl⟩
  · set indices0 := List.range' 1 (w.length - 2) with hind0
    set indices := (if w.length % 2 = 1 then
        if w.length / 2 ∈ indices0 then indices0.erase (w.length / 2)
        else indices0
      else indices0) with hind
    have hsubset : indices ⊆ indices0 := by
      rw [hind]
      split
      · split
        · exact List.erase_subset _ _
        · exact fun a ha => ha
      · exact fun a ha => ha
    have hb : ∀ i ∈ indices, i < w.length := by
      intro i hi
      have := List.mem_range'_1.mp (hsubset hi)
      omega
    have hnd : indices.Nodup := by
      rw [hind]
      split
      · split
        · exact List.Nodup.erase _ (List.nodup_range' _ _)
        · exact List.nodup_range' _ _
      · exact List.nodup_range' _ _
    have h0 : 0 ∉ indices := by
      intro h
      have := List.mem_range'_1.mp (hsubset h)
      omega
    have hlast : w.length - 1 ∉ indices := by
      intro h
      have := List.mem_range'_1.mp (hsubset h)
      omega
    have hmid : w.length % 2 = 1 → w.length / 2 ∉ indices := by
      intro hodd h
      rw [hind, if_pos hodd] at h
      by_cases hmem : w.length / 2 ∈ indices0
      · rw [if_pos hmem] at h
        exact (((List.nodup_range' 1 (w.length - 2)).mem_erase_iff.mp h).1) rfl
      · rw [if_neg hmem] at h
        exact hmem h
    obtain ⟨c, r', h1, h2, h5, hperm, h6⟩ :=
      attempt_shuffle_valid 'a' w indices rng 8 hnd hb hv
    refine ⟨c, r', ?_, h2, h5, hperm, h6 0 h0, h6 _ hlast, fun ho => h6 _ (hmid ho)⟩
    rw [scramble_word, if_neg hs]
    rw [hind, hind0] at h1
    exact h1

/-! ### Interior decomposition -/

lemma dropLast_getD (d : Char) : ∀ (t : List Char), t ≠ [] →
    t.dropLast ++ [t.getD (t.length - 1) d] = t := by
  intro t
  induction t with
  | nil => intro h; exact absurd rfl h
  | cons a t ih =>
    intro _
    cases t with
    | nil => rfl
    | cons b t2 =>
      have hne : (b :: t2) ≠ [] := by simp
      have h2 : (a :: b :: t2).getD ((a :: b :: t2).length - 1) d
          = (b :: t2).getD ((b :: t2).length - 1) d := by
        simp only [List.length_cons]
        rw [show t2.length + 1 + 1 - 1 = (t2.length + 1 - 1) + 1 from by omega]
        rw [List.getD_cons_succ]
      calc (a :: b :: t2).dropLast ++
            [(a :: b :: t2).getD ((a :: b :: t2).length - 1) d]
          = a :: ((b :: t2).dropLast ++
              [(b :: t2).getD ((b :: t2).length - 1) d]) := by
            rw [h2]; rfl
        _ = a :: b :: t2 := by rw [ih hne]

lemma interior_decomp (d : Char) (l : List Char) (h : 2 ≤ l.length) :
    l = l.getD 0 d :: ((l.drop 1).dropLast ++ [l.getD (l.length - 1) d]) := by
  cases l with
  | nil => simp at h
  | cons a t =>
    have ht : t ≠ [] := by
      intro he
      subst he
      simp at h
    have h2 : (a :: t).getD ((a :: t).length - 1) d = t.getD (t.length - 1) d := by
      obtain ⟨k, hk⟩ : ∃ k, t.length = k + 1 := by
        cases t with
        | nil => exact absurd rfl ht
        | cons x xs => exact ⟨xs.length, rfl⟩
      simp only [List.length_cons, hk]
      rw [show k + 1 + 1 - 1 = k + 1 from rfl, List.getD_cons_succ,
        show k + 1 - 1 = k from rfl]
    conv_rhs => rw [h2]
    show a :: t = a :: (t.dropLast ++ [t.getD (t.length - 1) d])
    rw [dropLast_getD d t ht]

lemma interior_perm (d : Char) (x y : List Char) (h2 : 2 ≤ y.length)
    (hlen : x.length = y.length) (hperm : x.Perm y)
    (h0 : x.getD 0 d = y.getD 0 d)
    (hl : x.getD (x.length - 1) d = y.getD (y.length - 1) d) :
    ((x.drop 1).dropLast).Perm ((y.drop 1).dropLast) := by
  have hx := interior_decomp d x (by omega)
  have hy := interior_decomp d y h2
  rw [hl, h0] at hx
  have hm : (x : Multiset Char) = (y : Multiset Char) :=
    Multiset.coe_eq_coe.mpr hperm
  apply Multiset.coe_eq_coe.mp
  have hmx : (x : Multiset Char) = ↑((x.drop 1).dropLast) +
      ({y.getD 0 d} + {y.getD (y.length - 1) d}) := by
    conv_lhs => rw [hx]
    rw [← Multiset.cons_coe, ← Multiset.singleton_add, ← Multiset.coe_add,
      Multiset.coe_singleton]
    abel
  have hmy : (y : Multiset Char) = ↑((y.drop 1).dropLast) +
      ({y.getD 0 d} + {y.getD (y.length - 1) d}) := by
    conv_lhs => rw [hy]
    rw [← Multiset.cons_coe, ← Multiset.singleton_add, ← Multiset.coe_add,
      Multiset.coe_singleton]
    abel
  rw [hmx, hmy] at hm
  exact add_right_cancel hm

/-! ### Claim theorems for the word shuffler -/

/-- C1: for every word `w` with `len(w) > 3` and every rng state,
`scramble_word(w, rng)` returns a word of the same length whose first
character equals `w[0]`, whose last character equals `w[-1]`, whose middle
character equals `w`'s middle character when `len(w)` is odd, and whose
multiset of interior characters (positions `1..len(w)-2`) equals that of
`w`. -/
theorem scramble_word_anchors_and_interior (w : List Char) (rng : Rng)
    (hlen : 3 < w.length) (hv : rng.Valid) :
    ∃ w' rng', scramble_word w rng = some (w', rng') ∧
      w'.length = w.length ∧
      w'.getD 0 ' ' = w.getD 0 ' ' ∧
      w'.getD (w.length - 1) ' ' = w.getD (w.length - 1) ' ' ∧
      (w.length % 2 = 1 →
        w'.getD (w.length / 2) ' ' = w.getD (w.length / 2) ' ') ∧
      ((w'.drop 1).dropLast).Perm ((w.drop 1).dropLast) := by
  obtain ⟨w', rng', h1, _, h3, h4, h5, h6, h7⟩ := scramble_word_spec w rng hv
  have hg : ∀ j, w'.get? j = w.get? j → w'.getD j ' ' = w.getD j ' ' := by
    intro j hj
    rw [List.getD_eq_getElem?_getD, List.getD_eq_getElem?_getD,
      ← List.get?_eq_getElem?, ← List.get?_eq_getElem?, hj]
  have h0' := hg 0 h5
  have hl' : w'.getD (w.length - 1) ' ' = w.getD (w.length - 1) ' ' := hg _ h6
  refine ⟨w', rng', h1, h3, h0', hl', fun ho => hg _ (h7 ho), ?_⟩
  exact interior_perm ' ' w' w (by omega) h3 h4 h0' (by rw [h3]; exact hl')

/-- Witness for C1 at the concrete word "word" and a reversing rng. -/
theorem scramble_word_anchors_and_interior_witness :
    ∃ w' rng',
      scramble_word ['w', 'o', 'r', 'd'] ⟨fun _ l => l.reverse, 0⟩ =
        some (w', rng') ∧
      w'.length = (['w', 'o', 'r', 'd'] : List Char).length ∧
      w'.getD 0 ' ' = (['w', 'o', 'r', 'd'] : List Char).getD 0 ' ' ∧
      w'.getD ((['w', 'o', 'r', 'd'] : List Char).length - 1) ' ' =
        (['w', 'o', 'r', 'd'] : List Char).getD
          ((['w', 'o', 'r', 'd'] : List Char).length - 1) ' ' ∧
      ((['w', 'o', 'r', 'd'] : List Char).length % 2 = 1 →
        w'.getD ((['w', 'o', 'r', 'd'] : List Char).length / 2) ' ' =
          (['w', 'o', 'r', 'd'] : List Char).getD
            ((['w', 'o', 'r', 'd'] : List Char).length / 2) ' ') ∧
      ((w'.drop 1).dropLast).Perm
        (((['w', 'o', 'r', 'd'] : List Char).drop 1).dropLast) :=
  scramble_word_anchors_and_interior ['w', 'o', 'r', 'd']
    ⟨fun _ l => l.reverse, 0⟩ (by decide) (fun _ l => l.reverse_perm)

/-- C5: for every word `w` with `len(w) ≤ 3` and every rng,
`scramble_word(w, rng) = w`, with the rng untouched. -/
theorem scramble_word_short_unchanged (w : List Char) (rng : Rng)
    (h : w.length ≤ 3) : scramble_word w rng = some (w, rng) := by
  simp [scramble_word, h]

/-- Witness for C5 at the concrete word "the". -/
theorem scramble_word_short_unchanged_witness :
    scramble_word ['t', 'h', 'e'] ⟨fun _ l => l, 0⟩ =
      some (['t', 'h', 'e'], ⟨fun _ l => l, 0⟩) :=
  scramble_word_short_unchanged ['t', 'h', 'e'] ⟨fun _ l => l, 0⟩ (by decide)

/-- C4: the interior shuffle is total and bounded: with in-range indices,
`_attempt_shuffle` always returns (never errors, never loops), consumes at
most 8 rng draws, returns the input unchanged without touching the rng
when the index set has size ≤ 1 or all characters at the indices are
identical, and returns the input unchanged when all 8 attempts reproduce
the original ordering. -/
theorem attempt_shuffle_bounded_total (chars : List Char)
    (indices : List Nat) (rng : Rng)
    (hb : ∀ i ∈ indices, i < chars.length) :
    ∃ c r', attempt_shuffle chars indices rng 8 = some (c, r') ∧
      r'.f = rng.f ∧ rng.k ≤ r'.k ∧ r'.k ≤ rng.k + 8 ∧
      (indices.length ≤ 1 → c = chars ∧ r' = rng) ∧
      ((indices.map fun i => chars.getD i ' ').dedup.length ≤ 1 →
        c = chars ∧ r' = rng) ∧
      ((∀ m, m < 8 → assignAll chars
          (indices.zip (rng.f (rng.k + m)
            (indices.map fun i => chars.getD i ' '))) = some chars) →
        c = chars) := by
  obtain ⟨c, r', h1, h2, h3, h4, _, _, h7, h8, h9, _⟩ :=
    attempt_shuffle_total ' ' chars indices rng 8 hb
  exact ⟨c, r', h1, h2, h3, h4, h7, h8, h9⟩

/-- Witness for C4 at concrete inputs. -/
theorem attempt_shuffle_bounded_total_witness :
    ∃ c r', attempt_shuffle ['a', 'b', 'c', 'd'] [1, 2]
        ⟨fun _ l => l, 0⟩ 8 = some (c, r') ∧
      r'.f = (⟨fun _ l => l, 0⟩ : Rng).f ∧
      (⟨fun _ l => l, 0⟩ : Rng).k ≤ r'.k ∧
      r'.k ≤ (⟨fun _ l => l, 0⟩ : Rng).k + 8 ∧
      (([1, 2] : List Nat).length ≤ 1 →
        c = ['a', 'b', 'c', 'd'] ∧ r' = ⟨fun _ l => l, 0⟩) ∧
      ((([1, 2] : List Nat).map
          (fun i => (['a', 'b', 'c', 'd'] : List Char).getD i ' ')).dedup.length
            ≤ 1 → c = ['a', 'b', 'c', 'd'] ∧ r' = ⟨fun _ l => l, 0⟩) ∧
      ((∀ m, m < 8 → assignAll ['a', 'b', 'c', 'd']
          (([1, 2] : List Nat).zip ((⟨fun _ l => l, 0⟩ : Rng).f
            ((⟨fun _ l => l, 0⟩ : Rng).k + m)
            (([1, 2] : List Nat).map
              (fun i => (['a', 'b', 'c', 'd'] : List Char).getD i ' ')))) =
          some ['a', 'b', 'c', 'd']) → c = ['a', 'b', 'c', 'd']) :=
  attempt_shuffle_bounded_total ['a', 'b', 'c', 'd'] [1, 2]
    ⟨fun _ l => l, 0⟩ (by decide)

/-! ### Segment structure of the text -/

lemma runsAux_flatten (f : Char → Bool) : ∀ (rest : List Char) (cls : Bool)
    (acc : List Char),
    ((runsAux f cls acc rest).map Prod.snd).flatten = acc.reverse ++ rest := by
  intro rest
  induction rest with
  | nil => intro cls acc; simp [runsAux]
  | cons c cs ih =>
    intro cls acc
    by_cases h : f c = cls
    · simp only [runsAux]
      rw [if_pos h, ih]
      simp
    · simp only [runsAux]
      rw [if_neg h]
      simp [ih]

lemma runsBy_flatten (f : Char → Bool) (l : List Char) :
    ((runsBy f l).map Prod.snd).flatten = l := by
  cases l with
  | nil => rfl
  | cons c cs => simp [runsBy, runsAux_flatten]

lemma runsAux_classes (f : Char → Bool) : ∀ (rest : List Char) (cls : Bool)
    (acc : List Char), (∀ c ∈ acc, f c = cls) →
    ∀ s ∈ runsAux f cls acc rest, ∀ c ∈ s.2, f c = s.1 := by
  intro rest
  induction rest with
  | nil =>
    intro cls acc hacc s hs c hc
    simp only [runsAux, List.mem_singleton] at hs
    subst hs
    exact hacc c (List.mem_reverse.mp hc)
  | cons x xs ih =>
    intro cls acc hacc s hs c hc
    by_cases h : f x = cls
    · simp only [runsAux] at hs
      rw [if_pos h] at hs
      have hacc' : ∀ e ∈ x :: acc, f e = cls := by
        intro e he
        rcases List.mem_cons.mp he with he | he
        · subst he; exact h
        · exact hacc e he
      exact ih cls (x :: acc) hacc' s hs c hc
    · simp only [runsAux] at hs
      rw [if_neg h] at hs
      rcases List.mem_cons.mp hs with hs | hs
      · subst hs
        exact hacc c (List.mem_reverse.mp hc)
      · exact ih (f x) [x] (by simp) s hs c hc

lemma segments_flatten (t : List Char) :
    ((segments t).map Prod.snd).flatten = t :=
  runsBy_flatten isWordChar t

lemma segments_classes (t : List Char) :
    ∀ s ∈ segments t, ∀ c ∈ s.2, isWordChar c = s.1 := by
  intro s hs
  cases t with
  | nil => simp [segments, runsBy] at hs
  | cons c cs =>
    exact runsAux_classes isWordChar cs (isWordChar c) [c] (by simp) s hs

lemma maskO_append (a b : List Char) : maskO (a ++ b) = maskO a ++ maskO b :=
  List.map_append _ a b

lemma maskO_allWord (l : List Char) (h : ∀ c ∈ l, isWordChar c = true) :
    maskO l = List.replicate l.length none := by
  rw [List.eq_replicate_iff]
  refine ⟨by simp [maskO], ?_⟩
  intro b hb
  obtain ⟨c, hc, hbc⟩ := List.mem_map.mp hb
  rw [← hbc, h c hc]
  rfl

lemma maskO_filterMap (l : List Char) :
    (maskO l).filterMap id = l.filter (fun c => !(isWordChar c)) := by
  induction l with
  | nil => rfl
  | cons c cs ih =>
    by_cases h : isWordChar c
    · simp [maskO, List.filterMap_cons, List.filter_cons, h] at ih ⊢
      exact ih
    · simp [maskO, List.filterMap_cons, List.filter_cons, h] at ih ⊢
      exact ih

lemma scrambleSegs_spec : ∀ (segs : List (Bool × List Char)) (rng : Rng),
    rng.Valid → (∀ s ∈ segs, ∀ c ∈ s.2, isWordChar c = s.1) →
    ∃ out rng', scrambleSegs segs rng = some (out, rng') ∧ rng'.f = rng.f ∧
      maskO out = maskO ((segs.map Prod.snd).flatten) := by
  intro segs
  induction segs with
  | nil => intro rng _ _; exact ⟨[], rng, rfl, rfl, by simp⟩
  | cons s rest ih =>
    obtain ⟨b, run⟩ := s
    intro rng hv hcls
    cases b with
    | false =>
      obtain ⟨out, rng', h1, h2, h3⟩ :=
        ih rng hv (fun s hs => hcls s (List.mem_cons_of_mem _ hs))
      refine ⟨run ++ out, rng', ?_, h2, ?_⟩
      · simp [scrambleSegs, h1]
      · simp only [List.map_cons, List.flatten_cons]
        rw [maskO_append, maskO_append, h3]
    | true =>
      obtain ⟨w', rng1, hw1, hwf, _, hwperm, _, _, _⟩ :=
        scramble_word_spec run rng hv
      have hv1 : rng1.Valid := by
        intro n l
        rw [hwf]
        exact hv n l
      obtain ⟨out, rng', h1, h2, h3⟩ :=
        ih rng1 hv1 (fun s hs => hcls s (List.mem_cons_of_mem _ hs))
      refine ⟨w' ++ out, rng', ?_, by rw [h2, hwf], ?_⟩
      · simp [scrambleSegs, hw1, h1]
      · simp only [List.map_cons, List.flatten_cons]
        rw [maskO_append, maskO_append, h3]
        have hrun : ∀ c ∈ run, isWordChar c = true :=
          fun c hc => hcls (true, run) (List.mem_cons_self _ _) c hc
        have hw'c : ∀ c ∈ w', isWordChar c = true :=
          fun c hc => hrun c (hwperm.mem_iff.mp hc)
        rw [maskO_allWord run hrun, maskO_allWord w' hw'c, hwperm.length_eq]

/-- C2: for every text `t` and every rng, the scrambled text has the same
length as `t`, every non-letter character occupies exactly the same
position in the output as in the input (hence same count and relative
order), and letters stay at letter positions: only the content of maximal
letter runs may change. -/
theorem scramble_text_preserves_nonletters (t : List Char) (rng : Rng)
    (hv : rng.Valid) :
    ∃ t' rng', scramble_text t rng = some (t', rng') ∧
      t'.length = t.length ∧ maskO t' = maskO t ∧
      t'.filter (fun c => !(isWordChar c)) =
        t.filter (fun c => !(isWordChar c)) := by
  obtain ⟨t', rng', h1, _, h3⟩ :=
    scrambleSegs_spec (segments t) rng hv (segments_classes t)
  rw [segments_flatten] at h3
  refine ⟨t', rng', h1, ?_, h3, ?_⟩
  · have := congrArg List.length h3
    simpa [maskO] using this
  · rw [← maskO_filterMap, ← maskO_filterMap, h3]

/-- Witness for C2 at a concrete mixed text and a reversing rng. -/
theorem scramble_text_preserves_nonletters_witness :
    ∃ t' rng',
      scramble_text ['a', 'b', 'c', 'd', '1', '!', ' ', 'e', 'f']
        ⟨fun _ l => l.reverse, 0⟩ = some (t', rng') ∧
      t'.length = (['a', 'b', 'c', 'd', '1', '!', ' ', 'e', 'f'] : List Char).length ∧
      maskO t' = maskO ['a', 'b', 'c', 'd', '1', '!', ' ', 'e', 'f'] ∧
      t'.filter (fun c => !(isWordChar c)) =
        (['a', 'b', 'c', 'd', '1', '!', ' ', 'e', 'f'] : List Char).filter
          (fun c => !(isWordChar c)) :=
  scramble_text_preserves_nonletters ['a', 'b', 'c', 'd', '1', '!', ' ', 'e', 'f']
    ⟨fun _ l => l.reverse, 0⟩ (fun _ l => l.reverse_perm)

/-- C3: `scramble_text` is deterministic: its output depends only on the
input text and the rng's shuffle stream and position, so two runs from the
same seed (hence pointwise-equal streams at the same position) produce
identical results. -/
theorem scramble_text_deterministic (t : List Char) (r1 r2 : Rng)
    (hf : ∀ n l, r1.f n l = r2.f n l) (hk : r1.k = r2.k) :
    scramble_text t r1 = scramble_text t r2 := by
  obtain ⟨f1, k1⟩ := r1
  obtain ⟨f2, k2⟩ := r2
  have hff : f1 = f2 := funext fun n => funext fun l => hf n l
  subst hff
  simp only at hk
  subst hk
  rfl

/-- Witness for C3 at a concrete text and two structurally equal rngs. -/
theorem scramble_text_deterministic_witness :
    scramble_text ['h', 'e', 'l', 'l', 'o'] ⟨fun _ l => l.reverse, 0⟩ =
      scramble_text ['h', 'e', 'l', 'l', 'o'] ⟨fun _ l => l.reverse, 0⟩ :=
  scramble_text_deterministic ['h', 'e', 'l', 'l', 'o']
    ⟨fun _ l => l.reverse, 0⟩ ⟨fun _ l => l.reverse, 0⟩
    (fun _ _ => rfl) rfl

/-! ### The scoring engine (`src/scoring.py`) -/

/-- Embedding of `str.lower` on the Latin-1 range used by this program:
ASCII uppercase and the accented uppercase letters U+00C0-U+00D6 and
U+00D8-U+00DE map down by 32; everything else is unchanged. -/
def lowerChar (c : Char) : Char :=
  if (0x41 ≤ c.toNat && c.toNat ≤ 0x5A) ||
      (0xC0 ≤ c.toNat && c.toNat ≤ 0xD6) ||
      (0xD8 ≤ c.toNat && c.toNat ≤ 0xDE) then
    Char.ofNat (c.toNat + 32)
  else c

/-- Embedding of `str.lower` on whole strings (`method.lower()`). -/
def lowerStr (s : String) : String :=
  String.mk (s.data.map lowerChar)

/-- Embedding of the whitespace class of `str.split()` (ASCII whitespace). -/
def isSpace (c : Char) : Bool :=
  c == ' ' || c == '\t' || c == '\n' || c == '\r' ||
  c.toNat == 0xB || c.toNat == 0xC

/-- Embedding of `text.split()`: maximal runs of non-whitespace characters,
leading/trailing/repeated whitespace discarded. -/
def splitWs (l : List Char) : List (List Char) :=
  (runsBy (fun c => !(isSpace c)) l).filterMap
    (fun s => if s.1 then some s.2 else none)

/-- Embedding of `WORD_PATTERN.findall(text)`: the word segments of the
text in order. -/
def wordsOf (l : List Char) : List (List Char) :=
  (segments l).filterMap (fun s => if s.1 then some s.2 else none)

/-- Embedding of the inner `normalize` of `compute_detailed_score`:
optionally collapse whitespace runs to single spaces
(`' '.join(text.split())`), then optionally lowercase. -/
def normalizeText (text : List Char) (ignore_case collapse_whitespace : Bool) :
    List Char :=
  let processed :=
    if collapse_whitespace then List.intercalate [' '] (splitWs text) else text
  if ignore_case then processed.map lowerChar else processed

/-- Length of the longest common prefix of two lists. -/
def commonLen [DecidableEq α] : List α → List α → Nat
  | a :: as, b :: bs => if a = b then commonLen as bs + 1 else 0
  | _, _ => 0

/-- All start-index pairs scanned when searching for the longest common
block. -/
def allPairs (m n : Nat) : List (Nat × Nat) :=
  (List.range m).flatMap (fun i => (List.range n).map (fun j => (i, j)))

/-- Keep the better of the current best block and the block starting at the
given index pair. -/
def betterAt [DecidableEq α] (a b : List α) (best : Nat × Nat × Nat)
    (ij : Nat × Nat) : Nat × Nat × Nat :=
  if best.2.2 < commonLen (a.drop ij.1) (b.drop ij.2) then
    (ij.1, ij.2, commonLen (a.drop ij.1) (b.drop ij.2))
  else best

/-- Modelled from the spec: the longest-matching-block search of the
sequence-similarity metric (`difflib.SequenceMatcher`, standard-library
code not present under `src/`), per spec section 4.5: find a longest
common contiguous block `(i, j, size)` of the two sequences. -/
def longestBlock [DecidableEq α] (a b : List α) : Nat × Nat × Nat :=
  (allPairs a.length b.length).foldl (betterAt a b) (0, 0, 0)

lemma commonLen_le_left [DecidableEq α] :
    ∀ (a b : List α), commonLen a b ≤ a.length := by
  intro a
  induction a with
  | nil => intro b; cases b <;> simp [commonLen]
  | cons x xs ih =>
    intro b
    cases b with
    | nil => simp [commonLen]
    | cons y ys =>
      by_cases h : x = y
      · simp only [commonLen, if_pos h, List.length_cons]
        exact Nat.succ_le_succ (ih ys)
      · simp only [commonLen, if_neg h]
        omega

lemma commonLen_le_right [DecidableEq α] :
    ∀ (a b : List α), commonLen a b ≤ b.length := by
  intro a
  induction a with
  | nil => intro b; cases b <;> simp [commonLen]
  | cons x xs ih =>
    intro b
    cases b with
    | nil => simp [commonLen]
    | cons y ys =>
      by_cases h : x = y
      · simp only [commonLen, if_pos h, List.length_cons]
        exact Nat.succ_le_succ (ih ys)
      · simp only [commonLen, if_neg h]
        omega

lemma foldl_betterAt_inv [DecidableEq α] (a b : List α) :
    ∀ (l : List (Nat × Nat)) (init : Nat × Nat × Nat),
    init.2.2 ≤ commonLen (a.drop init.1) (b.drop init.2.1) →
    (l.foldl (betterAt a b) init).2.2 ≤
      commonLen (a.drop (l.foldl (betterAt a b) init).1)
        (b.drop (l.foldl (betterAt a b) init).2.1) := by
  intro l
  induction l with
  | nil => intro init h; exact h
  | cons p ps ih =>
    intro init h
    apply ih
    by_cases hlt : init.2.2 < commonLen (a.drop p.1) (b.drop p.2)
    · simp only [betterAt, if_pos hlt]
      exact le_refl _
    · simp only [betterAt, if_neg hlt]
      exact h

lemma longestBlock_le [DecidableEq α] (a b : List α) :
    (longestBlock a b).2.2 ≤
      commonLen (a.drop (longestBlock a b).1)
        (b.drop (longestBlock a b).2.1) :=
  foldl_betterAt_inv a b (allPairs a.length b.length) (0, 0, 0)
    (Nat.zero_le _)

/-- Modelled from the spec: total size of the matching blocks of the
sequence-similarity metric (`difflib.SequenceMatcher`, standard-library
code not present under `src/`): take a longest common block and recurse on
the parts before and after it. -/
def matchTotal [DecidableEq α] (a b : List α) : Nat :=
  if (longestBlock a b).2.2 = 0 then 0
  else (longestBlock a b).2.2 +
    matchTotal (a.take (longestBlock a b).1) (b.take (longestBlock a b).2.1) +
    matchTotal (a.drop ((longestBlock a b).1 + (longestBlock a b).2.2))
      (b.drop ((longestBlock a b).2.1 + (longestBlock a b).2.2))
termination_by a.length + b.length
decreasing_by
  · have hle := longestBlock_le a b
    have h1 := commonLen_le_left (a.drop (longestBlock a b).1)
      (b.drop (longestBlock a b).2.1)
    have h2 := commonLen_le_right (a.drop (longestBlock a b).1)
      (b.drop (longestBlock a b).2.1)
    rw [List.length_drop] at h1 h2
    simp only [List.length_take]
    omega
  · have hle := longestBlock_le a b
    have h1 := commonLen_le_left (a.drop (longestBlock a b).1)
      (b.drop (longestBlock a b).2.1)
    have h2 := commonLen_le_right (a.drop (longestBlock a b).1)
      (b.drop (longestBlock a b).2.1)
    rw [List.length_drop] at h1 h2
    simp only [List.length_drop]
    omega

/-- Modelled from the spec: `difflib.SequenceMatcher(None, a, b).ratio()`
(standard-library code not present under `src/`), per spec section 4.5:
`ratio = 2*M / T` where `M` is the total size of matching blocks and `T`
the combined length; exact match gives `1.0` (including both empty). -/
def ratio [DecidableEq α] (a b : List α) : Rat :=
  if a.length + b.length = 0 then 1
  else 2 * (matchTotal a b : Rat) / ((a.length : Rat) + (b.length : Rat))

/-- Embedding of the `ScoreResult` dataclass of `src/scoring.py`. -/
structure ScoreResult where
  model_name : String
  source_label : String
  method : String
  score : Rat
  char_score : Rat
  word_score : Rat
  token_set_score : Rat
deriving DecidableEq

/-- Embedding of `compute_detailed_score` from `src/scoring.py`.
Python set sizes `len(set(A) | set(B))` and `len(set(A) & set(B))` are
embedded as `Finset` cardinalities; the `ValueError` for an unknown method
becomes `Except.error`. -/
def compute_detailed_score (original decoded : List Char)
    (ignore_case collapse_whitespace : Bool) (method : String)
    (name source_label : String) : Except String ScoreResult :=
  let original_norm := normalizeText original ignore_case collapse_whitespace
  let decoded_norm := normalizeText decoded ignore_case collapse_whitespace
  let char_score := ratio original_norm decoded_norm
  let words_original := wordsOf original_norm
  let words_decoded := wordsOf decoded_norm
  let word_score : Rat :=
    if words_original = [] ∧ words_decoded = [] then 1
    else if words_original = [] ∨ words_decoded = [] then 0
    else ratio words_original words_decoded
  let token_set_score : Rat :=
    if words_original ≠ [] ∨ words_decoded ≠ [] then
      if (words_original.toFinset ∪ words_decoded.toFinset).card ≠ 0 then
        ((words_original.toFinset ∩ words_decoded.toFinset).card : Rat) /
          ((words_original.toFinset ∪ words_decoded.toFinset).card : Rat)
      else 1
    else 1
  let method_lower := lowerStr method
  if method_lower = "char" then
    Except.ok ⟨name, source_label, method_lower, char_score,
      char_score, word_score, token_set_score⟩
  else if method_lower = "word" then
    Except.ok ⟨name, source_label, method_lower, word_score,
      char_score, word_score, token_set_score⟩
  else if method_lower = "token_set" then
    Except.ok ⟨name, source_label, method_lower, token_set_score,
      char_score, word_score, token_set_score⟩
  else if method_lower = "hybrid" then
    Except.ok ⟨name, source_label, method_lower,
      (char_score + word_score + token_set_score) / 3,
      char_score, word_score, token_set_score⟩
  else Except.error ("Unsupported scoring method: " ++ method)

/-- Python truthiness of the optional `name` argument: `None` and the
empty string are falsy. -/
def truthyName : Option String → Bool
  | none => false
  | some s => s != ""

/-- Embedding of `score_decoded_text` from `src/scoring.py`: returns the
primary score together with the row logged to the results file (`none`
when no logging happens); an unknown method propagates the error, so no
score and no log row are produced on that path. -/
def score_decoded_text (original decoded : List Char)
    (ignore_case collapse_whitespace : Bool) (method : String)
    (name : Option String) (source_label : String) :
    Except String (Rat × Option ScoreResult) :=
  let nm := match name with
    | none => "unnamed"
    | some s => if s = "" then "unnamed" else s
  match compute_detailed_score original decoded ignore_case
      collapse_whitespace method nm source_label with
  | Except.error e => Except.error e
  | Except.ok r => Except.ok (r.score, if truthyName name then some r else none)

/-! ### The ratio of identical sequences is 1 -/

lemma commonLen_self [DecidableEq α] : ∀ (l : List α), commonLen l l = l.length := by
  intro l
  induction l with
  | nil => rfl
  | cons x xs ih => simp [commonLen, ih]

lemma foldl_betterAt_init_le [DecidableEq α] (a b : List α) :
    ∀ (l : List (Nat × Nat)) (init : Nat × Nat × Nat),
    init.2.2 ≤ (l.foldl (betterAt a b) init).2.2 := by
  intro l
  induction l with
  | nil => intro init; exact le_refl _
  | cons p ps ih =>
    intro init
    refine le_trans ?_ (ih (betterAt a b init p))
    by_cases hlt : init.2.2 < commonLen (a.drop p.1) (b.drop p.2)
    · simp only [betterAt, if_pos hlt]
      omega
    · simp only [betterAt, if_neg hlt]
      exact le_refl _

lemma foldl_betterAt_ge_mem [DecidableEq α] (a b : List α) :
    ∀ (l : List (Nat × Nat)) (init : Nat × Nat × Nat) (p : Nat × Nat),
    p ∈ l → commonLen (a.drop p.1) (b.drop p.2) ≤
      (l.foldl (betterAt a b) init).2.2 := by
  intro l
  induction l with
  | nil => intro init p hp; simp at hp
  | cons q qs ih =>
    intro init p hp
    rcases List.mem_cons.mp hp with hp | hp
    · subst hp
      refine le_trans ?_ (foldl_betterAt_init_le a b qs (betterAt a b init p))
      by_cases hlt : init.2.2 < commonLen (a.drop p.1) (b.drop p.2)
      · simp only [betterAt, if_pos hlt]
        exact le_refl _
      · simp only [betterAt, if_neg hlt]
        omega
    · exact ih (betterAt a b init q) p hp

lemma longestBlock_self [DecidableEq α] (l : List α) (h : l ≠ []) :
    longestBlock l l = (0, 0, l.length) := by
  have hpos : 0 < l.length := List.length_pos.mpr h
  have hub := longestBlock_le l l
  have hmem : ((0 : Nat), (0 : Nat)) ∈ allPairs l.length l.length := by
    simp only [allPairs, List.mem_flatMap, List.mem_map, List.mem_range]
    exact ⟨0, hpos, 0, hpos, rfl⟩
  have hlb := foldl_betterAt_ge_mem l l (allPairs l.length l.length)
    (0, 0, 0) (0, 0) hmem
  rw [commonLen_self] at hlb
  have h1 := commonLen_le_left (l.drop (longestBlock l l).1)
    (l.drop (longestBlock l l).2.1)
  rw [List.length_drop] at h1
  have h2 := commonLen_le_left (l.drop (longestBlock l l).2.1)
    (l.drop (longestBlock l l).1)
  rw [List.length_drop] at h2
  have h2' := commonLen_le_right (l.drop (longestBlock l l).1)
    (l.drop (longestBlock l l).2.1)
  rw [List.length_drop] at h2'
  have hk : (longestBlock l l).2.2 = l.length := by
    have : (longestBlock l l).2.2 ≤ l.length := le_trans hub (by omega)
    exact le_antisymm this hlb
  have hi : (longestBlock l l).1 = 0 := by omega
  have hj : (longestBlock l l).2.1 = 0 := by omega
  rcases hq : longestBlock l l with ⟨i, jk⟩
  rcases jk with ⟨j, k⟩
  rw [hq] at hk hi hj
  simp only at hk hi hj
  rw [hi, hj, hk]

lemma matchTotal_nil [DecidableEq α] : matchTotal ([] : List α) [] = 0 := by
  rw [matchTotal]
  simp [longestBlock, allPairs]

lemma matchTotal_self [DecidableEq α] (l : List α) :
    matchTotal l l = l.length := by
  by_cases h : l = []
  · subst h
    exact matchTotal_nil
  · have hlen : l.length ≠ 0 := by
      simpa [List.length_eq_zero] using h
    rw [matchTotal, longestBlock_self l h]
    simp only
    rw [if_neg hlen]
    simp only [List.take_zero, Nat.zero_add, List.drop_length, matchTotal_nil]
    omega

lemma ratio_self [DecidableEq α] (l : List α) : ratio l l = 1 := by
  by_cases h : l = []
  · subst h
    simp [ratio]
  · have hpos : 0 < l.length := List.length_pos.mpr h
    rw [ratio, if_neg (by omega), matchTotal_self]
    have hcast : ((l.length : Rat) + (l.length : Rat)) = 2 * (l.length : Rat) := by
      ring
    rw [hcast]
    have hne : (2 : Rat) * (l.length : Rat) ≠ 0 := by
      have : (l.length : Rat) ≠ 0 := by
        exact_mod_cast hpos.ne'
      exact mul_ne_zero two_ne_zero this
    exact div_self hne

/-! ### Claim theorems for the scorer -/

/-- C6: the final score selected by `method` is the char metric for
"char", the word metric for "word", the token-set metric for "token_set",
and for "hybrid" the unweighted arithmetic mean of the three component
metrics; the component metrics themselves do not depend on the method. -/
theorem compute_final_score_selection (o d : List Char) (ic cw : Bool)
    (n s : String) :
    ∃ rc rw_ rt rh,
      compute_detailed_score o d ic cw "char" n s = Except.ok rc ∧
      compute_detailed_score o d ic cw "word" n s = Except.ok rw_ ∧
      compute_detailed_score o d ic cw "token_set" n s = Except.ok rt ∧
      compute_detailed_score o d ic cw "hybrid" n s = Except.ok rh ∧
      rc.score = rc.char_score ∧
      rw_.score = rw_.word_score ∧
      rt.score = rt.token_set_score ∧
      rh.score = (rh.char_score + rh.word_score + rh.token_set_score) / 3 ∧
      rc.char_score = rh.char_score ∧ rw_.word_score = rh.word_score ∧
      rt.token_set_score = rh.token_set_score :=
  ⟨_, _, _, _, rfl, rfl, rfl, rfl, rfl, rfl, rfl, rfl, rfl, rfl, rfl⟩

/-- C9: the word-level metric is 1 when both normalized texts tokenize to
empty word lists, 0 when exactly one is empty, and otherwise the
longest-matching-blocks ratio over the two word lists. -/
theorem word_score_edge_cases (o d : List Char) (n s : String) :
    ∃ r, compute_detailed_score o d true true "word" n s = Except.ok r ∧
      r.score =
        (if wordsOf (normalizeText o true true) = [] ∧
            wordsOf (normalizeText d true true) = [] then (1 : Rat)
         else if wordsOf (normalizeText o true true) = [] ∨
            wordsOf (normalizeText d true true) = [] then 0
         else ratio (wordsOf (normalizeText o true true))
            (wordsOf (normalizeText d true true))) :=
  ⟨_, rfl, rfl⟩

/-- C7: an unknown method string makes the scorer fail with the
invalid-argument error; no numeric score and no log row are produced. -/
theorem unknown_method_errors (o d : List Char) (ic cw : Bool) (m : String)
    (nm : Option String) (s : String)
    (h : lowerStr m ∉ (["char", "word", "token_set", "hybrid"] : List String)) :
    score_decoded_text o d ic cw m nm s =
      Except.error ("Unsupported scoring method: " ++ m) := by
  simp only [List.mem_cons, List.mem_singleton, not_or] at h
  obtain ⟨h1, h2, h3, h4, -⟩ := h
  simp only [score_decoded_text, compute_detailed_score]
  rw [if_neg h1, if_neg h2, if_neg h3, if_neg h4]

/-- Witness for C7 at the concrete method string "bogus". -/
theorem unknown_method_errors_witness :
    score_decoded_text ['h', 'i'] ['h', 'i'] true true "bogus" none "src" =
      Except.error ("Unsupported scoring method: " ++ "bogus") :=
  unknown_method_errors ['h', 'i'] ['h', 'i'] true true "bogus" none "src"
    (by decide)

/-- C10: the method argument is matched case-insensitively: any casing
whose lowercasing is one of the four valid method names yields the same
result as the all-lowercase spelling, and the recorded method field is the
lowercased name. -/
theorem method_case_insensitive (o d : List Char) (ic cw : Bool)
    (m v : String) (n s : String)
    (hv : v ∈ (["char", "word", "token_set", "hybrid"] : List String))
    (hm : lowerStr m = v) :
    compute_detailed_score o d ic cw m n s =
      compute_detailed_score o d ic cw v n s ∧
    ∃ r, compute_detailed_score o d ic cw m n s = Except.ok r ∧
      r.method = lowerStr m := by
  have hcases : v = "char" ∨ v = "word" ∨ v = "token_set" ∨ v = "hybrid" := by
    simpa using hv
  have key : compute_detailed_score o d ic cw m n s =
      compute_detailed_score o d ic cw v n s := by
    rcases hcases with rfl | rfl | rfl | rfl <;>
      (unfold compute_detailed_score; rw [hm]; rfl)
  refine ⟨key, ?_⟩
  rw [key, hm]
  rcases hcases with rfl | rfl | rfl | rfl
  · exact ⟨_, rfl, rfl⟩
  · exact ⟨_, rfl, rfl⟩
  · exact ⟨_, rfl, rfl⟩
  · exact ⟨_, rfl, rfl⟩

/-- Witness for C10 at the concrete casing "HYBRID". -/
theorem method_case_insensitive_witness :
    compute_detailed_score ['a', 'b'] ['a', 'b'] true true "HYBRID" "n" "s" =
      compute_detailed_score ['a', 'b'] ['a', 'b'] true true "hybrid" "n" "s" ∧
    ∃ r, compute_detailed_score ['a', 'b'] ['a', 'b'] true true "HYBRID" "n" "s"
        = Except.ok r ∧
      r.method = lowerStr "HYBRID" :=
  method_case_insensitive ['a', 'b'] ['a', 'b'] true true "HYBRID" "hybrid"
    "n" "s" (by decide) rfl

lemma score_decoded_ok (o d : List Char) (ic cw : Bool) (m : String)
    (s : String) (r : ScoreResult)
    (h : compute_detailed_score o d ic cw m "unnamed" s = Except.ok r) :
    score_decoded_text o d ic cw m none s = Except.ok (r.score, none) := by
  simp only [score_decoded_text]
  rw [h]
  simp [truthyName]

/-- C8: scoring any text against itself under default normalization gives
exactly 1 for each of the four methods, with no error raised and no log
row written (the name argument is absent). -/
theorem score_self_is_one (x : List Char) (m : String) (s : String)
    (hm : m ∈ (["char", "word", "token_set", "hybrid"] : List String)) :
    score_decoded_text x x true true m none s = Except.ok (1, none) := by
  have hchar : ratio (normalizeText x true true) (normalizeText x true true)
      = 1 := ratio_self _
  have hword : (if wordsOf (normalizeText x true true) = [] ∧
        wordsOf (normalizeText x true true) = [] then (1 : Rat)
      else if wordsOf (normalizeText x true true) = [] ∨
        wordsOf (normalizeText x true true) = [] then 0
      else ratio (wordsOf (normalizeText x true true))
        (wordsOf (normalizeText x true true))) = 1 := by
    by_cases hw : wordsOf (normalizeText x true true) = []
    · rw [if_pos ⟨hw, hw⟩]
    · rw [if_neg (fun hc => hw hc.1),
        if_neg (fun hc => hw (hc.elim id id))]
      exact ratio_self _
  have htok : (if wordsOf (normalizeText x true true) ≠ [] ∨
        wordsOf (normalizeText x true true) ≠ [] then
      (if ((wordsOf (normalizeText x true true)).toFinset ∪
            (wordsOf (normalizeText x true true)).toFinset).card ≠ 0 then
        (((wordsOf (normalizeText x true true)).toFinset ∩
            (wordsOf (normalizeText x true true)).toFinset).card : Rat) /
          (((wordsOf (normalizeText x true true)).toFinset ∪
            (wordsOf (normalizeText x true true)).toFinset).card : Rat)
      else 1) else 1) = 1 := by
    by_cases hw : wordsOf (normalizeText x true true) = []
    · rw [if_neg (fun hc => hc.elim (fun hne => hne hw) (fun hne => hne hw))]
    · rw [if_pos (Or.inl hw)]
      have hcard' : (wordsOf (normalizeText x true true)).toFinset.card ≠ 0 := by
        simp only [ne_eq, Finset.card_eq_zero]
        rw [List.toFinset_eq_empty_iff]
        exact hw
      have hcard : ((wordsOf (normalizeText x true true)).toFinset ∪
          (wordsOf (normalizeText x true true)).toFinset).card ≠ 0 := by
        rw [Finset.union_self]
        exact hcard'
      rw [if_pos hcard, Finset.union_self, Finset.inter_self]
      exact div_self (by exact_mod_cast hcard')
  have hcases : m = "char" ∨ m = "word" ∨ m = "token_set" ∨ m = "hybrid" := by
    simpa using hm
  rcases hcases with rfl | rfl | rfl | rfl
  · rw [score_decoded_ok x x true true "char" s _ rfl]
    exact congrArg (fun q => Except.ok (q, none)) hchar
  · rw [score_decoded_ok x x true true "word" s _ rfl]
    exact congrArg (fun q => Except.ok (q, none)) hword
  · rw [score_decoded_ok x x true true "token_set" s _ rfl]
    exact congrArg (fun q => Except.ok (q, none)) htok
  · rw [score_decoded_ok x x true true "hybrid" s _ rfl]
    have hmean : (ratio (normalizeText x true true) (normalizeText x true true)
        + (if wordsOf (normalizeText x true true) = [] ∧
            wordsOf (normalizeText x true true) = [] then (1 : Rat)
          else if wordsOf (normalizeText x true true) = [] ∨
            wordsOf (normalizeText x true true) = [] then 0
          else ratio (wordsOf (normalizeText x true true))
            (wordsOf (normalizeText x true true)))
        + (if wordsOf (normalizeText x true true) ≠ [] ∨
            wordsOf (normalizeText x true true) ≠ [] then
          (if ((wordsOf (normalizeText x true true)).toFinset ∪
                (wordsOf (normalizeText x true true)).toFinset).card ≠ 0 then
            (((wordsOf (normalizeText x true true)).toFinset ∩
                (wordsOf (normalizeText x true true)).toFinset).card : Rat) /
              (((wordsOf (normalizeText x true true)).toFinset ∪
                (wordsOf (normalizeText x true true)).toFinset).card : Rat)
          else 1) else 1)) / 3 = 1 := by
      rw [hchar, hword, htok]
      norm_num
    exact congrArg (fun q => Except.ok (q, none)) hmean

/-- Witness for C8 at the empty string and the default "hybrid" method. -/
theorem score_self_is_one_witness :
    score_decoded_text [] [] true true "hybrid" none "src" =
      Except.ok (1, none) :=
  score_self_is_one [] "hybrid" "src" (by decide)

end WordSalat
